import Mathlib

/-!
# Verification of `data/reconvert_all.py`

A shallow embedding of the `reconvert_all.py` maintenance script and proofs of
its specified properties.

The script changes into its own directory, then:
* for every file matching `*.npy`: loads the array, saves it back to the same
  filename, and writes `<filename>.repr` containing `repr(data)` plus a newline;
* for every file matching `*.npz`: loads it as a name-to-array dictionary and
  writes `<filename>.repr` containing `repr(dict)` plus a newline, leaving the
  archive itself untouched.

The filesystem (the script's working directory) is modelled as an association
list from filename to file content, ordered as the directory enumeration that
`glob.glob` observes.  The numpy library routines (`np.load`, `np.save`, `repr`)
are external library code, not part of this repository; they are modelled from
the spec as deterministic functions over an abstract file-content type.
-/

/-- Modelled from the spec: a numeric N-dimensional array as `numpy` presents
it — an element type (dtype), a shape, and the element values.  The spec's
"same shape, same element type, same element values" is equality of this
structure. -/
structure NpArray where
  dtype : String
  shape : List Nat
  data : List Int
deriving DecidableEq

/-- Modelled from the spec: the content of a file in the working directory.

* `npy a pad` — a valid serialized single array; `pad` models the byte-level
  freedom the `.npy` format allows (header padding / alignment), so distinct
  byte encodings of the same array are representable.  `np.save` always
  produces the canonical encoding (`pad = 0`).
* `npz m` — a valid archive: a mapping from member name to array, member order
  as stored in the archive.
* text — a plain text file (such as the `.repr` dumps the script writes).
* `raw b` — arbitrary bytes that are not a valid array or archive encoding.
-/
inductive FileData where
  | npy (a : NpArray) (pad : Nat)
  | npz (entries : List (String × NpArray))
  | text (s : String)
  | raw (bytes : List Nat)
deriving DecidableEq

/-- Modelled from the spec: `np.save` — serialize one array in the `.npy`
format.  `np.save` is deterministic, so it always emits the canonical
encoding. -/
def npSave (a : NpArray) : FileData := FileData.npy a 0

/-- Modelled from the spec: `np.load` on a file expected to hold a single
array, to be re-saved with `np.save`.  Returns the array for any valid `.npy`
encoding (canonical or not); any other content is a load error, which the
script lets propagate. -/
def npLoadArr : Option FileData → Option NpArray
  | some (FileData.npy a _) => some a
  | _ => none

/-- Modelled from the spec: `dict(np.load(..))` on a file expected to be an
archive — the full name-to-array mapping, in stored order.  Any other content
is a load error, which the script lets propagate. -/
def npLoadDict : Option FileData → Option (List (String × NpArray))
  | some (FileData.npz m) => some m
  | _ => none

/-- Modelled from the spec: the array library's textual rendering (`repr`) of
a loaded array.  The spec treats this rendering as an external, replaceable
formatting function, so it is modelled as a fixed deterministic function of
the array value. -/
def reprArr (a : NpArray) : String :=
  "array(" ++ toString a.data ++ ", dtype=" ++ a.dtype ++ ", shape=" ++ toString a.shape ++ ")"

/-- Modelled from the spec: Python's `repr` of a string (used for the keys of
the archive dictionary). -/
def reprKey (k : String) : String :=
  String.singleton (Char.ofNat 39) ++ k ++ String.singleton (Char.ofNat 39)

/-- Modelled from the spec: Python's `repr` of the name-to-array dictionary,
entries in insertion (= archive) order. -/
def reprDict (m : List (String × NpArray)) : String :=
  "\x7b" ++ String.intercalate ", " (m.map (fun e => reprKey e.1 ++ ": " ++ reprArr e.2)) ++ "\x7d"

/-- The working directory: filenames paired with their contents, in the
enumeration order `glob.glob` observes.  Real directories have distinct
filenames; theorems that need this take a `Nodup` hypothesis. -/
abbrev Fs := List (String × FileData)

/-- Content of the file named `n`, or `none` when no such file exists. -/
def getFile : Fs → String → Option FileData
  | [], _ => none
  | (m, d) :: rest, n => if m = n then some d else getFile rest n

/-- Writing (mode `w`): overwrite the existing file, or create a new one. -/
def writeFile : Fs → String → FileData → Fs
  | [], n, d => [(n, d)]
  | (m, e) :: rest, n, d => if m = n then (m, d) :: rest else (m, e) :: writeFile rest n d

/-- Boolean list-prefix test, used to model glob suffix/prefix matching. -/
def isPre : List Char → List Char → Bool
  | [], _ => true
  | _ :: _, [] => false
  | a :: as, b :: bs => a == b && isPre as bs

/-- `s` ends with `suff`. -/
def strEndsWith (s suff : String) : Bool := isPre suff.data.reverse s.data.reverse

/-- `s` starts with `pre`. -/
def strStartsWith (s pre : String) : Bool := isPre pre.data s.data

/-- `glob.glob('*.npy')` membership: the name ends in `.npy` and is not a
hidden (dot-initial) file, which `glob` skips. -/
def matchNpy (n : String) : Bool := strEndsWith n ".npy" && !strStartsWith n "."

/-- `glob.glob('*.npz')` membership. -/
def matchNpz (n : String) : Bool := strEndsWith n ".npz" && !strStartsWith n "."

/-- The list a `glob.glob` call returns: the directory's filenames, in
enumeration order, filtered by the pattern. -/
def globNames (p : String → Bool) (fs : Fs) : List String :=
  (fs.map Prod.fst).filter p

/-- One iteration of the first loop, on filename `n`:
`data = np.load(n); np.save(n, data); open(n + '.repr', 'w').write(repr(data) + '\n')`.
`none` models an exception propagating out of `np.load` before any write. -/
def processNpy (fs : Fs) (n : String) : Option Fs :=
  match npLoadArr (getFile fs n) with
  | none => none
  | some a =>
    some (writeFile (writeFile fs n (npSave a)) (n ++ ".repr")
      (FileData.text (reprArr a ++ "\n")))

/-- One iteration of the second loop, on filename `n`:
`data = dict(np.load(n)); open(n + '.repr', 'w').write(repr(data) + '\n')`.
The archive itself is not rewritten. -/
def processNpz (fs : Fs) (n : String) : Option Fs :=
  match npLoadDict (getFile fs n) with
  | none => none
  | some m =>
    some (writeFile fs (n ++ ".repr") (FileData.text (reprDict m ++ "\n")))

/-- Run one `for` loop over a list of filenames.  On the first failing
iteration the loop stops: the result is the directory state at that point and
the name of the failing file (the propagated error). -/
def runLoop (step : Fs → String → Option Fs) : Fs → List String → Fs × Option String
  | fs, [] => (fs, none)
  | fs, n :: rest =>
    match step fs n with
    | none => (fs, some n)
    | some fs1 => runLoop step fs1 rest

/-- The whole script: the `*.npy` loop, then — only if it completed — the
`*.npz` loop, whose glob is evaluated on the directory as the first loop left
it.  Returns the final directory state and the error, if any terminated the
run. -/
def runScript (fs : Fs) : Fs × Option String :=
  match runLoop processNpy fs (globNames matchNpy fs) with
  | (fs1, some e) => (fs1, some e)
  | (fs1, none) => runLoop processNpz fs1 (globNames matchNpz fs1)

/-- A concrete 2-by-2 integer array, as in the spec's first test scenario. -/
def demoA : NpArray := ⟨"int64", [2, 2], [1, 2, 3, 4]⟩

/-- A concrete 1-dimensional integer array for the archive scenario. -/
def demoX : NpArray := ⟨"int64", [3], [1, 2, 3]⟩

/-- A demo directory: a single-array file stored non-canonically, an archive,
and an unrelated text file. -/
def demoFs : Fs :=
  [("a.npy", FileData.npy demoA 1),
   ("b.npz", FileData.npz [("x", demoX)]),
   ("notes.txt", FileData.text "hello")]

/-- A demo directory whose second single-array file holds corrupt bytes, as
in the spec's corrupt-file scenario. -/
def badFs : Fs :=
  [("a.npy", FileData.npy demoA 0),
   ("c.npy", FileData.raw [0, 1, 2]),
   ("d.npy", FileData.npy demoX 0),
   ("b.npz", FileData.npz [("x", demoX)])]

/-- A demo directory whose single-array files are all valid but whose second
archive holds corrupt bytes, so the run aborts in the archive loop. -/
def badZFs : Fs :=
  [("a.npy", FileData.npy demoA 1),
   ("b.npz", FileData.npz [("x", demoX)]),
   ("c.npz", FileData.raw [9]),
   ("d.npz", FileData.npz [("y", demoX)])]

/-! ## Basic lemmas: `getFile` and `writeFile` -/

theorem getFile_writeFile_self (fs : Fs) (n : String) (d : FileData) :
    getFile (writeFile fs n d) n = some d := by
  induction fs with
  | nil => simp [writeFile, getFile]
  | cons hd tl ih =>
    obtain ⟨m, e⟩ := hd
    by_cases h : m = n
    · simp [writeFile, getFile, h]
    · simp [writeFile, getFile, h, ih]

theorem getFile_writeFile_ne (fs : Fs) (n m : String) (d : FileData) (h : m ≠ n) :
    getFile (writeFile fs n d) m = getFile fs m := by
  have hnm : ¬ n = m := fun h2 => h h2.symm
  induction fs with
  | nil => simp [writeFile, getFile, hnm]
  | cons hd tl ih =>
    obtain ⟨k, e⟩ := hd
    by_cases hk : k = n
    · subst hk
      simp [writeFile, getFile, hnm]
    · by_cases hm : k = m
      · subst hm
        simp [writeFile, getFile, hk]
      · simp [writeFile, getFile, hk, hm, ih]

theorem getFile_some_mem {fs : Fs} {n : String} {d : FileData}
    (h : getFile fs n = some d) : n ∈ fs.map Prod.fst := by
  induction fs with
  | nil => simp [getFile] at h
  | cons hd tl ih =>
    obtain ⟨m, e⟩ := hd
    by_cases hm : m = n
    · simp [hm]
    · simp only [getFile, if_neg hm] at h
      simp [ih h]

theorem writeFile_same {fs : Fs} {n : String} {d : FileData}
    (h : getFile fs n = some d) : writeFile fs n d = fs := by
  induction fs with
  | nil => simp [getFile] at h
  | cons hd tl ih =>
    obtain ⟨m, e⟩ := hd
    by_cases hm : m = n
    · subst hm
      have h2 : e = d := by simpa [getFile] using h
      subst h2
      simp [writeFile]
    · simp only [getFile, if_neg hm] at h
      simp [writeFile, hm, ih h]

theorem names_writeFile_mem {fs : Fs} {n : String} (d : FileData)
    (h : n ∈ fs.map Prod.fst) :
    (writeFile fs n d).map Prod.fst = fs.map Prod.fst := by
  induction fs with
  | nil => simp at h
  | cons hd tl ih =>
    obtain ⟨m, e⟩ := hd
    by_cases hm : m = n
    · simp [writeFile, hm]
    · simp only [List.map_cons, List.mem_cons] at h
      rcases h with h | h

      · exact absurd h.symm hm
      · simp [writeFile, hm, ih h]

theorem names_writeFile_not_mem {fs : Fs} {n : String} (d : FileData)
    (h : ¬ n ∈ fs.map Prod.fst) :
    (writeFile fs n d).map Prod.fst = fs.map Prod.fst ++ [n] := by
  induction fs with
  | nil => simp [writeFile]
  | cons hd tl ih =>
    obtain ⟨m, e⟩ := hd
    simp only [List.map_cons, List.mem_cons] at h
    push_neg at h
    have hmn : ¬ m = n := fun h2 => h.1 h2.symm
    simp [writeFile, hmn, ih h.2]

/-! ## Filename lemmas: glob patterns and the `.repr` suffix -/

/-- The last character of a filename, if any. -/
def lastChar (s : String) : Option Char := s.data.reverse.head?

theorem isPre_head {c : Char} {p l : List Char} (h : isPre (c :: p) l = true) :
    l.head? = some c := by
  cases l with
  | nil => simp [isPre] at h
  | cons b bs =>
    simp only [isPre, Bool.and_eq_true, beq_iff_eq] at h
    simp [h.1]

theorem lastChar_endsWith {s suff : String} (h : strEndsWith s suff = true)
    (hne : suff.data ≠ []) : lastChar s = lastChar suff := by
  cases hr : suff.data.reverse with
  | nil => exact absurd (by simpa using hr) hne
  | cons c rest =>
    unfold strEndsWith at h
    rw [hr] at h
    unfold lastChar
    rw [isPre_head h, hr]
    rfl

theorem lastChar_append (s t : String) (h : t.data ≠ []) :
    lastChar (s ++ t) = lastChar t := by
  unfold lastChar
  rw [String.data_append, List.reverse_append]
  cases ht : t.data.reverse with
  | nil => exact absurd (by simpa using ht) h
  | cons c r => simp [ht]

theorem lastChar_append_repr (s : String) : lastChar (s ++ ".repr") = some 'r' := by
  rw [lastChar_append s ".repr" (by decide)]
  decide

theorem matchNpy_lastChar {s : String} (h : matchNpy s = true) : lastChar s = some 'y' := by
  unfold matchNpy at h
  rw [Bool.and_eq_true] at h
  rw [lastChar_endsWith h.1 (by decide)]
  decide

theorem matchNpz_lastChar {s : String} (h : matchNpz s = true) : lastChar s = some 'z' := by
  unfold matchNpz at h
  rw [Bool.and_eq_true] at h
  rw [lastChar_endsWith h.1 (by decide)]
  decide

theorem matchNpy_append_repr (s : String) : matchNpy (s ++ ".repr") = false := by
  cases h : matchNpy (s ++ ".repr") with
  | false => rfl
  | true =>
    have h2 := matchNpy_lastChar h
    rw [lastChar_append_repr s] at h2
    exact absurd h2 (by decide)

theorem matchNpz_append_repr (s : String) : matchNpz (s ++ ".repr") = false := by
  cases h : matchNpz (s ++ ".repr") with
  | false => rfl
  | true =>
    have h2 := matchNpz_lastChar h
    rw [lastChar_append_repr s] at h2
    exact absurd h2 (by decide)

theorem npy_ne_append_repr {n : String} (g : String) (hn : matchNpy n = true) :
    n ≠ g ++ ".repr" := by
  intro heq
  rw [heq] at hn
  rw [matchNpy_append_repr g] at hn
  exact Bool.false_ne_true hn

theorem npz_ne_append_repr {n : String} (g : String) (hn : matchNpz n = true) :
    n ≠ g ++ ".repr" := by
  intro heq
  rw [heq] at hn
  rw [matchNpz_append_repr g] at hn
  exact Bool.false_ne_true hn

theorem matchNpz_of_npy {n : String} (hy : matchNpy n = true) : matchNpz n = false := by
  cases hz : matchNpz n with
  | false => rfl
  | true =>
    have h1 := matchNpy_lastChar hy
    have h2 := matchNpz_lastChar hz
    rw [h1] at h2
    exact absurd h2 (by decide)

theorem append_repr_inj {s t : String} (h : s ++ ".repr" = t ++ ".repr") : s = t := by
  have h2 := congrArg String.data h
  rw [String.data_append, String.data_append] at h2
  exact String.ext (List.append_cancel_right h2)

theorem ne_self_append_repr (n : String) : n ≠ n ++ ".repr" := by
  intro h
  have h2 := congrArg (fun s => s.data.length) h
  simp only [String.data_append, List.length_append] at h2
  have h3 : (".repr" : String).data.length = 5 := by decide
  rw [h3] at h2
  omega

/-! ## Step-level lemmas for the two loop bodies -/

theorem matchNpy_of_npz {n : String} (hz : matchNpz n = true) : matchNpy n = false := by
  cases hy : matchNpy n with
  | false => rfl
  | true =>
    have h1 := matchNpy_lastChar hy
    have h2 := matchNpz_lastChar hz
    rw [h1] at h2
    exact absurd h2 (by decide)

theorem processNpy_eq {fs : Fs} {n : String} {fs1 : Fs} (h : processNpy fs n = some fs1) :
    ∃ a, npLoadArr (getFile fs n) = some a ∧
      fs1 = writeFile (writeFile fs n (npSave a)) (n ++ ".repr")
        (FileData.text (reprArr a ++ "\n")) := by
  unfold processNpy at h
  cases hload : npLoadArr (getFile fs n) with
  | none => rw [hload] at h; exact absurd h (by simp)
  | some a =>
    rw [hload] at h
    simp only [Option.some.injEq] at h
    exact ⟨a, rfl, h.symm⟩

theorem processNpz_eq {fs : Fs} {n : String} {fs1 : Fs} (h : processNpz fs n = some fs1) :
    ∃ d, npLoadDict (getFile fs n) = some d ∧
      fs1 = writeFile fs (n ++ ".repr") (FileData.text (reprDict d ++ "\n")) := by
  unfold processNpz at h
  cases hload : npLoadDict (getFile fs n) with
  | none => rw [hload] at h; exact absurd h (by simp)
  | some d =>
    rw [hload] at h
    simp only [Option.some.injEq] at h
    exact ⟨d, rfl, h.symm⟩

theorem processNpy_frame {fs : Fs} {n : String} {fs1 : Fs} (h : processNpy fs n = some fs1)
    (m : String) (hm1 : m ≠ n) (hm2 : m ≠ n ++ ".repr") :
    getFile fs1 m = getFile fs m := by
  obtain ⟨a, _, heq⟩ := processNpy_eq h
  rw [heq, getFile_writeFile_ne _ _ _ _ hm2, getFile_writeFile_ne _ _ _ _ hm1]

theorem processNpz_frame {fs : Fs} {n : String} {fs1 : Fs} (h : processNpz fs n = some fs1)
    (m : String) (hm2 : m ≠ n ++ ".repr") :
    getFile fs1 m = getFile fs m := by
  obtain ⟨d, _, heq⟩ := processNpz_eq h
  rw [heq, getFile_writeFile_ne _ _ _ _ hm2]

theorem npLoadArr_some_getFile {fs : Fs} {n : String} {a : NpArray}
    (h : npLoadArr (getFile fs n) = some a) : ∃ d, getFile fs n = some d := by
  cases hg : getFile fs n with
  | none => rw [hg] at h; exact absurd h (by simp [npLoadArr])
  | some d => exact ⟨d, rfl⟩

theorem npLoadDict_some_getFile {fs : Fs} {n : String} {d : List (String × NpArray)}
    (h : npLoadDict (getFile fs n) = some d) : ∃ e, getFile fs n = some e := by
  cases hg : getFile fs n with
  | none => rw [hg] at h; exact absurd h (by simp [npLoadDict])
  | some e => exact ⟨e, rfl⟩

theorem writeFile_names_spec (fs : Fs) (n : String) (d : FileData) :
    ∃ l, (writeFile fs n d).map Prod.fst = fs.map Prod.fst ++ l ∧ ∀ x ∈ l, x = n := by
  by_cases hm : n ∈ fs.map Prod.fst
  · exact ⟨[], by simp [names_writeFile_mem d hm]⟩
  · refine ⟨[n], names_writeFile_not_mem d hm, ?_⟩
    simp

theorem processNpy_names {fs : Fs} {n : String} {fs1 : Fs} (h : processNpy fs n = some fs1) :
    ∃ l, fs1.map Prod.fst = fs.map Prod.fst ++ l ∧ ∀ x ∈ l, x = n ++ ".repr" := by
  obtain ⟨a, hload, heq⟩ := processNpy_eq h
  obtain ⟨d0, hd0⟩ := npLoadArr_some_getFile hload
  have hmem : n ∈ fs.map Prod.fst := getFile_some_mem hd0
  obtain ⟨l, hl, hlx⟩ := writeFile_names_spec (writeFile fs n (npSave a)) (n ++ ".repr")
    (FileData.text (reprArr a ++ "\n"))
  refine ⟨l, ?_, hlx⟩
  rw [heq, hl, names_writeFile_mem (npSave a) hmem]

theorem processNpz_names {fs : Fs} {n : String} {fs1 : Fs} (h : processNpz fs n = some fs1) :
    ∃ l, fs1.map Prod.fst = fs.map Prod.fst ++ l ∧ ∀ x ∈ l, x = n ++ ".repr" := by
  obtain ⟨d, hload, heq⟩ := processNpz_eq h
  obtain ⟨l, hl, hlx⟩ := writeFile_names_spec fs (n ++ ".repr")
    (FileData.text (reprDict d ++ "\n"))
  refine ⟨l, ?_, hlx⟩
  rw [heq, hl]

theorem nodup_append_singleton {l : List String} {n : String}
    (h : l.Nodup) (hm : n ∉ l) : (l ++ [n]).Nodup := by
  simp [List.nodup_append, h, hm]

theorem names_writeFile_nodup {fs : Fs} (n : String) (d : FileData)
    (h : (fs.map Prod.fst).Nodup) : ((writeFile fs n d).map Prod.fst).Nodup := by
  by_cases hm : n ∈ fs.map Prod.fst
  · rw [names_writeFile_mem d hm]; exact h
  · rw [names_writeFile_not_mem d hm]
    exact nodup_append_singleton h hm

theorem processNpy_nodup {fs : Fs} {n : String} {fs1 : Fs} (h : processNpy fs n = some fs1)
    (hnd : (fs.map Prod.fst).Nodup) : (fs1.map Prod.fst).Nodup := by
  obtain ⟨a, _, heq⟩ := processNpy_eq h
  rw [heq]
  exact names_writeFile_nodup _ _ (names_writeFile_nodup _ _ hnd)

theorem processNpz_nodup {fs : Fs} {n : String} {fs1 : Fs} (h : processNpz fs n = some fs1)
    (hnd : (fs.map Prod.fst).Nodup) : (fs1.map Prod.fst).Nodup := by
  obtain ⟨d, _, heq⟩ := processNpz_eq h
  rw [heq]
  exact names_writeFile_nodup _ _ hnd

/-! ## Loop-level lemmas -/

theorem runLoop_frame {step : Fs → String → Option Fs}
    (hstep : ∀ fs n fs1, step fs n = some fs1 →
      ∀ m, m ≠ n → m ≠ n ++ ".repr" → getFile fs1 m = getFile fs m)
    (ns : List String) (fs : Fs) (m : String)
    (hm1 : m ∉ ns) (hm2 : ∀ n ∈ ns, m ≠ n ++ ".repr") :
    getFile (runLoop step fs ns).1 m = getFile fs m := by
  induction ns generalizing fs with
  | nil => rfl
  | cons n rest ih =>
    simp only [runLoop]
    cases h : step fs n with
    | none => rfl
    | some fs1 =>
      have hrest : m ∉ rest := fun hc => hm1 (List.mem_cons_of_mem n hc)
      have hrest2 : ∀ x ∈ rest, m ≠ x ++ ".repr" :=
        fun x hx => hm2 x (List.mem_cons_of_mem n hx)
      rw [ih fs1 hrest hrest2]
      exact hstep fs n fs1 h m (fun hc => hm1 (hc ▸ List.mem_cons_self n rest))
        (hm2 n (List.mem_cons_self n rest))

theorem runLoop_frame_npz (ns : List String) (fs : Fs) (m : String)
    (hm2 : ∀ n ∈ ns, m ≠ n ++ ".repr") :
    getFile (runLoop processNpz fs ns).1 m = getFile fs m := by
  induction ns generalizing fs with
  | nil => rfl
  | cons n rest ih =>
    simp only [runLoop]
    cases h : processNpz fs n with
    | none => rfl
    | some fs1 =>
      have hrest2 : ∀ x ∈ rest, m ≠ x ++ ".repr" :=
        fun x hx => hm2 x (List.mem_cons_of_mem n hx)
      rw [ih fs1 hrest2]
      exact processNpz_frame h m (hm2 n (List.mem_cons_self n rest))

theorem runLoop_names {step : Fs → String → Option Fs}
    (hstep : ∀ fs n fs1, step fs n = some fs1 →
      ∃ l, fs1.map Prod.fst = fs.map Prod.fst ++ l ∧ ∀ x ∈ l, x = n ++ ".repr")
    (ns : List String) (fs : Fs) :
    ∃ l, (runLoop step fs ns).1.map Prod.fst = fs.map Prod.fst ++ l ∧
      ∀ x ∈ l, ∃ n ∈ ns, x = n ++ ".repr" := by
  induction ns generalizing fs with
  | nil => exact ⟨[], by simp [runLoop]⟩
  | cons n rest ih =>
    simp only [runLoop]
    cases h : step fs n with
    | none => exact ⟨[], by simp⟩
    | some fs1 =>
      obtain ⟨l1, hl1, hl1x⟩ := hstep fs n fs1 h
      obtain ⟨l2, hl2, hl2x⟩ := ih fs1
      refine ⟨l1 ++ l2, ?_, ?_⟩
      · rw [hl2, hl1, List.append_assoc]
      · intro x hx
        rcases List.mem_append.1 hx with hx1 | hx2
        · exact ⟨n, List.mem_cons_self n rest, hl1x x hx1⟩
        · obtain ⟨g, hg, hgx⟩ := hl2x x hx2
          exact ⟨g, List.mem_cons_of_mem n hg, hgx⟩

theorem runLoop_nodup {step : Fs → String → Option Fs}
    (hstep : ∀ fs n fs1, step fs n = some fs1 →
      (fs.map Prod.fst).Nodup → (fs1.map Prod.fst).Nodup)
    (ns : List String) (fs : Fs) (hnd : (fs.map Prod.fst).Nodup) :
    ((runLoop step fs ns).1.map Prod.fst).Nodup := by
  induction ns generalizing fs with
  | nil => exact hnd
  | cons n rest ih =>
    simp only [runLoop]
    cases h : step fs n with
    | none => exact hnd
    | some fs1 => exact ih fs1 (hstep fs n fs1 h hnd)

theorem runLoop_id {step : Fs → String → Option Fs} {ns : List String} {fs : Fs}
    (h : ∀ n ∈ ns, step fs n = some fs) :
    runLoop step fs ns = (fs, none) := by
  induction ns with
  | nil => rfl
  | cons n rest ih =>
    simp only [runLoop, h n (List.mem_cons_self n rest)]
    exact ih (fun x hx => h x (List.mem_cons_of_mem n hx))

/-- What a completed `*.npy` loop guarantees for every processed filename:
the file held a valid array `a` beforehand, afterwards it holds the canonical
re-serialization of `a`, and its `.repr` sibling holds `repr(a)` plus one
newline. -/
theorem runLoop_npy_spec {fs fs1 : Fs} {ns : List String}
    (hrun : runLoop processNpy fs ns = (fs1, none))
    (hnd : ns.Nodup) (hall : ∀ n ∈ ns, matchNpy n = true) :
    ∀ n ∈ ns, ∃ a, npLoadArr (getFile fs n) = some a ∧
      getFile fs1 n = some (npSave a) ∧
      getFile fs1 (n ++ ".repr") = some (FileData.text (reprArr a ++ "\n")) := by
  induction ns generalizing fs with
  | nil => intro n hn; exact absurd hn (List.not_mem_nil n)
  | cons hd rest ih =>
    rw [List.nodup_cons] at hnd
    cases hstep : processNpy fs hd with
    | none =>
      simp only [runLoop, hstep] at hrun
      exact absurd (congrArg Prod.snd hrun) (by simp)
    | some fsh =>
      simp only [runLoop, hstep] at hrun
      obtain ⟨a, hload, heq⟩ := processNpy_eq hstep
      have hallrest : ∀ x ∈ rest, matchNpy x = true :=
        fun x hx => hall x (List.mem_cons_of_mem hd hx)
      intro n hn
      rcases List.mem_cons.1 hn with hcase | hcase
      · subst hcase
        refine ⟨a, hload, ?_, ?_⟩
        · have hc1 : getFile fsh n = some (npSave a) := by
            rw [heq, getFile_writeFile_ne _ _ _ _ (ne_self_append_repr n),
              getFile_writeFile_self]
          have hframe := runLoop_frame (fun fs n fs1 h => processNpy_frame h) rest fsh n
            hnd.1 (fun x hx => npy_ne_append_repr x (hall n (List.mem_cons_self n rest)))
          rw [hrun] at hframe
          rw [hframe, hc1]
        · have hc2 : getFile fsh (n ++ ".repr") =
              some (FileData.text (reprArr a ++ "\n")) := by
            rw [heq, getFile_writeFile_self]
          have hmem : (n ++ ".repr") ∉ rest := by
            intro hc
            have := hallrest _ hc
            rw [matchNpy_append_repr n] at this
            exact Bool.false_ne_true this
          have hne : ∀ x ∈ rest, n ++ ".repr" ≠ x ++ ".repr" := by
            intro x hx hc
            exact hnd.1 (append_repr_inj hc ▸ hx)
          have hframe := runLoop_frame (fun fs n fs1 h => processNpy_frame h) rest fsh
            (n ++ ".repr") hmem hne
          rw [hrun] at hframe
          rw [hframe, hc2]
      · have hne1 : n ≠ hd := fun hc => hnd.1 (hc ▸ hcase)
        have hne2 : n ≠ hd ++ ".repr" :=
          npy_ne_append_repr hd (hallrest n hcase)
        have hfr := processNpy_frame hstep n hne1 hne2
        obtain ⟨a2, hload2, hc1, hc2⟩ := ih hrun hnd.2 hallrest n hcase
        rw [hfr] at hload2
        exact ⟨a2, hload2, hc1, hc2⟩

/-- What a completed `*.npz` loop guarantees for every processed filename:
the archive held a valid mapping `d` beforehand, the archive file itself is
unchanged, and its `.repr` sibling holds `repr(d)` plus one newline. -/
theorem runLoop_npz_spec {fs fs1 : Fs} {ns : List String}
    (hrun : runLoop processNpz fs ns = (fs1, none))
    (hnd : ns.Nodup) (hall : ∀ n ∈ ns, matchNpz n = true) :
    ∀ n ∈ ns, ∃ d, npLoadDict (getFile fs n) = some d ∧
      getFile fs1 n = getFile fs n ∧
      getFile fs1 (n ++ ".repr") = some (FileData.text (reprDict d ++ "\n")) := by
  induction ns generalizing fs with
  | nil => intro n hn; exact absurd hn (List.not_mem_nil n)
  | cons hd rest ih =>
    rw [List.nodup_cons] at hnd
    cases hstep : processNpz fs hd with
    | none =>
      simp only [runLoop, hstep] at hrun
      exact absurd (congrArg Prod.snd hrun) (by simp)
    | some fsh =>
      simp only [runLoop, hstep] at hrun
      obtain ⟨d, hload, heq⟩ := processNpz_eq hstep
      have hallrest : ∀ x ∈ rest, matchNpz x = true :=
        fun x hx => hall x (List.mem_cons_of_mem hd hx)
      intro n hn
      rcases List.mem_cons.1 hn with hcase | hcase
      · subst hcase
        refine ⟨d, hload, ?_, ?_⟩
        · have hc1 : getFile fsh n = getFile fs n := by
            rw [heq, getFile_writeFile_ne _ _ _ _ (ne_self_append_repr n)]
          have hframe := runLoop_frame_npz rest fsh n
            (fun x hx => npz_ne_append_repr x (hall n (List.mem_cons_self n rest)))
          rw [hrun] at hframe
          rw [hframe, hc1]
        · have hc2 : getFile fsh (n ++ ".repr") =
              some (FileData.text (reprDict d ++ "\n")) := by
            rw [heq, getFile_writeFile_self]
          have hne : ∀ x ∈ rest, n ++ ".repr" ≠ x ++ ".repr" := by
            intro x hx hc
            exact hnd.1 (append_repr_inj hc ▸ hx)
          have hframe := runLoop_frame_npz rest fsh (n ++ ".repr") hne
          rw [hrun] at hframe
          rw [hframe, hc2]
      · have hne2 : n ≠ hd ++ ".repr" :=
          npz_ne_append_repr hd (hallrest n hcase)
        have hfr := processNpz_frame hstep n hne2
        obtain ⟨d2, hload2, hc1, hc2⟩ := ih hrun hnd.2 hallrest n hcase
        rw [hfr] at hload2
        rw [hfr] at hc1
        exact ⟨d2, hload2, hc1, hc2⟩

theorem processNpy_some {fs : Fs} {n : String} {a : NpArray}
    (h : npLoadArr (getFile fs n) = some a) :
    processNpy fs n = some (writeFile (writeFile fs n (npSave a)) (n ++ ".repr")
      (FileData.text (reprArr a ++ "\n"))) := by
  unfold processNpy
  rw [h]

theorem processNpy_none {fs : Fs} {n : String}
    (h : npLoadArr (getFile fs n) = none) : processNpy fs n = none := by
  unfold processNpy
  rw [h]

theorem processNpz_some {fs : Fs} {n : String} {d : List (String × NpArray)}
    (h : npLoadDict (getFile fs n) = some d) :
    processNpz fs n = some (writeFile fs (n ++ ".repr")
      (FileData.text (reprDict d ++ "\n"))) := by
  unfold processNpz
  rw [h]

theorem processNpz_none {fs : Fs} {n : String}
    (h : npLoadDict (getFile fs n) = none) : processNpz fs n = none := by
  unfold processNpz
  rw [h]

/-- What the `*.npy` loop does when it hits its first invalid file `n`:
the loop stops with error `n`, every file after `n` (and its would-be `.repr`
sibling) is untouched, and every file before `n` keeps its freshly written
outputs. -/
theorem runLoop_npy_error {fs : Fs} {pre post : List String} {n : String}
    (hnd : (pre ++ n :: post).Nodup)
    (hall : ∀ m ∈ pre ++ n :: post, matchNpy m = true)
    (hpre : ∀ m ∈ pre, (npLoadArr (getFile fs m)).isSome = true)
    (hn : npLoadArr (getFile fs n) = none) :
    (runLoop processNpy fs (pre ++ n :: post)).2 = some n ∧
    (∀ m ∈ post, getFile (runLoop processNpy fs (pre ++ n :: post)).1 m = getFile fs m ∧
       getFile (runLoop processNpy fs (pre ++ n :: post)).1 (m ++ ".repr") =
         getFile fs (m ++ ".repr")) ∧
    (∀ m ∈ pre, ∃ a, npLoadArr (getFile fs m) = some a ∧
       getFile (runLoop processNpy fs (pre ++ n :: post)).1 m = some (npSave a) ∧
       getFile (runLoop processNpy fs (pre ++ n :: post)).1 (m ++ ".repr") =
         some (FileData.text (reprArr a ++ "\n"))) := by
  induction pre generalizing fs with
  | nil =>
    simp only [List.nil_append]
    have hstep : processNpy fs n = none := processNpy_none hn
    simp only [runLoop, hstep]
    refine ⟨by trivial, ?_, ?_⟩
    · intro m _
      exact ⟨by trivial, by trivial⟩
    · intro m hm
      exact absurd hm (List.not_mem_nil m)
  | cons p pre2 ih =>
    simp only [List.cons_append] at hnd hall ⊢
    rw [List.nodup_cons] at hnd
    have hap : matchNpy p = true := hall p (List.mem_cons_self p _)
    have hrest : ∀ m ∈ pre2 ++ n :: post, matchNpy m = true :=
      fun m hm => hall m (List.mem_cons_of_mem p hm)
    obtain ⟨a, ha⟩ := Option.isSome_iff_exists.1 (hpre p (List.mem_cons_self p pre2))
    have hstep := processNpy_some ha
    simp only [runLoop, hstep]
    set fsp := writeFile (writeFile fs p (npSave a)) (p ++ ".repr")
      (FileData.text (reprArr a ++ "\n")) with hfsp
    have hframe : ∀ m, m ≠ p → m ≠ p ++ ".repr" → getFile fsp m = getFile fs m := by
      intro m hm1 hm2
      rw [hfsp, getFile_writeFile_ne _ _ _ _ hm2, getFile_writeFile_ne _ _ _ _ hm1]
    have hnp : n ≠ p := by
      intro hc
      exact hnd.1 (hc ▸ List.mem_append_right pre2 (List.mem_cons_self n post))
    have hpre2 : ∀ m ∈ pre2, (npLoadArr (getFile fsp m)).isSome = true := by
      intro m hm
      have hm1 : m ≠ p := by
        intro hc
        exact hnd.1 (hc ▸ List.mem_append_left _ hm)
      have hm2 : m ≠ p ++ ".repr" :=
        npy_ne_append_repr p (hrest m (List.mem_append_left _ hm))
      rw [hframe m hm1 hm2]
      exact hpre m (List.mem_cons_of_mem p hm)
    have hn2 : npLoadArr (getFile fsp n) = none := by
      rw [hframe n hnp (npy_ne_append_repr p
        (hrest n (List.mem_append_right pre2 (List.mem_cons_self n post))))]
      exact hn
    obtain ⟨ih1, ih2, ih3⟩ := ih hnd.2 hrest hpre2 hn2
    refine ⟨ih1, ?_, ?_⟩
    · intro m hm
      have hmmem : m ∈ pre2 ++ n :: post :=
        List.mem_append_right pre2 (List.mem_cons_of_mem n hm)
      have hm1 : m ≠ p := by
        intro hc
        exact hnd.1 (hc ▸ hmmem)
      have hm2 : m ≠ p ++ ".repr" := npy_ne_append_repr p (hrest m hmmem)
      have hr1 : m ++ ".repr" ≠ p := fun hc => npy_ne_append_repr m hap hc.symm
      have hr2 : m ++ ".repr" ≠ p ++ ".repr" := fun hc => hm1 (append_repr_inj hc)
      obtain ⟨ih2a, ih2b⟩ := ih2 m hm
      rw [ih2a, ih2b, hframe m hm1 hm2, hframe _ hr1 hr2]
      exact ⟨rfl, rfl⟩
    · intro m hm
      rcases List.mem_cons.1 hm with hcase | hcase
      · subst hcase
        refine ⟨a, ha, ?_, ?_⟩
        · have hc1 : getFile fsp m = some (npSave a) := by
            rw [hfsp, getFile_writeFile_ne _ _ _ _ (ne_self_append_repr m),
              getFile_writeFile_self]
          have hmem : m ∉ pre2 ++ n :: post := hnd.1
          have hne : ∀ x ∈ pre2 ++ n :: post, m ≠ x ++ ".repr" :=
            fun x hx => npy_ne_append_repr x hap
          have h2 := runLoop_frame (fun fs n fs1 h => processNpy_frame h)
            (pre2 ++ n :: post) fsp m hmem hne
          rw [h2, hc1]
        · have hc2 : getFile fsp (m ++ ".repr") =
              some (FileData.text (reprArr a ++ "\n")) := by
            rw [hfsp, getFile_writeFile_self]
          have hmem : (m ++ ".repr") ∉ pre2 ++ n :: post := by
            intro hc
            have := hrest _ hc
            rw [matchNpy_append_repr m] at this
            exact Bool.false_ne_true this
          have hne : ∀ x ∈ pre2 ++ n :: post, m ++ ".repr" ≠ x ++ ".repr" := by
            intro x hx hc
            exact hnd.1 (append_repr_inj hc ▸ hx)
          have h2 := runLoop_frame (fun fs n fs1 h => processNpy_frame h)
            (pre2 ++ n :: post) fsp (m ++ ".repr") hmem hne
          rw [h2, hc2]
      · have hm1 : m ≠ p := by
          intro hc
          exact hnd.1 (hc ▸ List.mem_append_left _ hcase)
        have hm2 : m ≠ p ++ ".repr" :=
          npy_ne_append_repr p (hrest m (List.mem_append_left _ hcase))
        obtain ⟨a2, ha2, hb2, hb3⟩ := ih3 m hcase
        rw [hframe m hm1 hm2] at ha2
        exact ⟨a2, ha2, hb2, hb3⟩

/-! ## Script-level decomposition -/

theorem runScript_eq_of_err {fs fs1 : Fs} {e : String}
    (h : runLoop processNpy fs (globNames matchNpy fs) = (fs1, some e)) :
    runScript fs = (fs1, some e) := by
  simp only [runScript, h]

theorem runScript_eq_of_ok {fs fs1 : Fs}
    (h : runLoop processNpy fs (globNames matchNpy fs) = (fs1, none)) :
    runScript fs = runLoop processNpz fs1 (globNames matchNpz fs1) := by
  simp only [runScript, h]

theorem runScript_success {fs : Fs} (h : (runScript fs).2 = none) :
    ∃ fs1, runLoop processNpy fs (globNames matchNpy fs) = (fs1, none) ∧
      runLoop processNpz fs1 (globNames matchNpz fs1) = ((runScript fs).1, none) := by
  cases hr : runLoop processNpy fs (globNames matchNpy fs) with
  | mk fs1 err =>
    cases err with
    | some e =>
      rw [runScript_eq_of_err hr] at h
      exact absurd h (by simp)
    | none =>
      have he := runScript_eq_of_ok hr
      refine ⟨fs1, rfl, ?_⟩
      rw [← he]
      exact Prod.ext rfl h

theorem globNames_eq_of_reprs {fs1 fs2 : Fs} {p : String → Bool}
    (hp : ∀ g, p (g ++ ".repr") = false)
    (hn : ∃ l, fs2.map Prod.fst = fs1.map Prod.fst ++ l ∧
      ∀ x ∈ l, ∃ g, x = g ++ ".repr") :
    globNames p fs2 = globNames p fs1 := by
  obtain ⟨l, hl, hlx⟩ := hn
  unfold globNames
  rw [hl, List.filter_append]
  have hnil : l.filter p = [] := by
    rw [List.filter_eq_nil_iff]
    intro x hx
    obtain ⟨g, hg⟩ := hlx x hx
    rw [hg, hp g]
    exact Bool.false_ne_true
  rw [hnil, List.append_nil]

/-- Frame through the whole first loop, for any filename that no iteration of
it can write: not a globbed `.npy` name and not the `.repr` sibling of one. -/
theorem runLoop1_frame (fs : Fs) (m : String)
    (hm1 : matchNpy m = false)
    (hm2 : ∀ x, matchNpy x = true → m ≠ x ++ ".repr") :
    getFile (runLoop processNpy fs (globNames matchNpy fs)).1 m = getFile fs m := by
  apply runLoop_frame (fun fs n fs1 h => processNpy_frame h)
  · intro hc
    rw [(List.mem_filter.1 hc).2] at hm1
    exact absurd hm1 (by decide)
  · intro x hx
    exact hm2 x (List.mem_filter.1 hx).2

/-- Frame through the whole second loop, for any filename that is not the
`.repr` sibling of a globbed `.npz` name.  (The second loop never rewrites
any globbed file itself.) -/
theorem runLoop2_frame (fs1 : Fs) (m : String)
    (hm2 : ∀ x, matchNpz x = true → m ≠ x ++ ".repr") :
    getFile (runLoop processNpz fs1 (globNames matchNpz fs1)).1 m = getFile fs1 m :=
  runLoop_frame_npz _ fs1 m (fun x hx => hm2 x (List.mem_filter.1 hx).2)

/-- C1: for every valid single-array (`.npy`) file, after a completed run the
file still deserializes to the same array — same shape, same element type,
same element values (`NpArray` equality). -/
theorem npy_roundtrip (fs : Fs) (n : String) (a : NpArray)
    (hnd : (fs.map Prod.fst).Nodup)
    (hok : (runScript fs).2 = none)
    (hn : matchNpy n = true)
    (ha : npLoadArr (getFile fs n) = some a) :
    npLoadArr (getFile (runScript fs).1 n) = some a := by
  obtain ⟨fs1, h1, h2⟩ := runScript_success hok
  have hmem : n ∈ globNames matchNpy fs := by
    obtain ⟨d, hd⟩ := npLoadArr_some_getFile ha
    exact List.mem_filter.2 ⟨getFile_some_mem hd, hn⟩
  obtain ⟨a2, ha2, hb, _⟩ := runLoop_npy_spec h1 (hnd.filter matchNpy)
    (fun x hx => (List.mem_filter.1 hx).2) n hmem
  rw [ha] at ha2
  obtain rfl : a = a2 := Option.some.inj ha2
  have hframe := runLoop2_frame fs1 n (fun x hx => npy_ne_append_repr x hn)
  rw [h2] at hframe
  rw [hframe, hb]
  rfl

/-- C1 witness. -/
theorem npy_roundtrip_witness :
    npLoadArr (getFile (runScript demoFs).1 "a.npy") = some demoA :=
  npy_roundtrip demoFs "a.npy" demoA (by decide) (by decide) (by decide) (by decide)

/-- C2: for every valid single-array (`.npy`) file `n`, after a completed run
the file `n ++ ".repr"` holds exactly the textual representation of the array
followed by one newline, and nothing else. -/
theorem npy_repr_dump (fs : Fs) (n : String) (a : NpArray)
    (hnd : (fs.map Prod.fst).Nodup)
    (hok : (runScript fs).2 = none)
    (hn : matchNpy n = true)
    (ha : npLoadArr (getFile fs n) = some a) :
    getFile (runScript fs).1 (n ++ ".repr") =
      some (FileData.text (reprArr a ++ "\n")) := by
  obtain ⟨fs1, h1, h2⟩ := runScript_success hok
  have hmem : n ∈ globNames matchNpy fs := by
    obtain ⟨d, hd⟩ := npLoadArr_some_getFile ha
    exact List.mem_filter.2 ⟨getFile_some_mem hd, hn⟩
  obtain ⟨a2, ha2, _, hc⟩ := runLoop_npy_spec h1 (hnd.filter matchNpy)
    (fun x hx => (List.mem_filter.1 hx).2) n hmem
  rw [ha] at ha2
  obtain rfl : a = a2 := Option.some.inj ha2
  have hframe := runLoop2_frame fs1 (n ++ ".repr") (by
    intro x hx hc2
    have hxn : n = x := append_repr_inj hc2
    rw [← hxn] at hx
    rw [matchNpz_of_npy hn] at hx
    exact Bool.false_ne_true hx)
  rw [h2] at hframe
  rw [hframe, hc]

/-- C2 witness. -/
theorem npy_repr_dump_witness :
    getFile (runScript demoFs).1 ("a.npy" ++ ".repr") =
      some (FileData.text (reprArr demoA ++ "\n")) :=
  npy_repr_dump demoFs "a.npy" demoA (by decide) (by decide) (by decide) (by decide)

/-- C3: archive (`.npz`) files are never written: whatever the run does
(success or error), the bytes of every file matching `*.npz` are unchanged. -/
theorem npz_unchanged (fs : Fs) (m : String) (hm : matchNpz m = true) :
    getFile (runScript fs).1 m = getFile fs m := by
  have hfr1 := runLoop1_frame fs m (matchNpy_of_npz hm)
    (fun x _ => npz_ne_append_repr x hm)
  cases hr : runLoop processNpy fs (globNames matchNpy fs) with
  | mk fs1 err =>
    rw [hr] at hfr1
    cases err with
    | some e =>
      rw [runScript_eq_of_err hr]
      exact hfr1
    | none =>
      rw [runScript_eq_of_ok hr]
      rw [runLoop2_frame fs1 m (fun x _ => npz_ne_append_repr x hm)]
      exact hfr1

/-- C3 witness. -/
theorem npz_unchanged_witness :
    getFile (runScript demoFs).1 "b.npz" = getFile demoFs "b.npz" :=
  npz_unchanged demoFs "b.npz" (by decide)

/-- C6: when no filename matches `*.npy` and none matches `*.npz`, the run is
a successful no-op: it terminates cleanly and the directory (every file's
existence and content) is exactly as before. -/
theorem empty_glob_noop (fs : Fs)
    (h1 : globNames matchNpy fs = []) (h2 : globNames matchNpz fs = []) :
    runScript fs = (fs, none) := by
  have hl1 : runLoop processNpy fs (globNames matchNpy fs) = (fs, none) := by
    rw [h1]
    rfl
  rw [runScript_eq_of_ok hl1, h2]
  rfl

/-- C6 witness. -/
theorem empty_glob_noop_witness :
    runScript [("notes.txt", FileData.text "hello")] =
      ([("notes.txt", FileData.text "hello")], none) :=
  empty_glob_noop [("notes.txt", FileData.text "hello")] (by decide) (by decide)

/-- C7: the only files the run ever writes are globbed `*.npy` files and the
`.repr` siblings of globbed `*.npy` / `*.npz` files: any file whose name
matches neither pattern and is not such a sibling keeps its exact content
(and files it does not have stay absent), whether the run succeeds or not. -/
theorem write_frame (fs : Fs) (m : String)
    (hm : matchNpy m = false)
    (hr : ∀ g, (matchNpy g || matchNpz g) = true → m ≠ g ++ ".repr") :
    getFile (runScript fs).1 m = getFile fs m := by
  have hfr1 := runLoop1_frame fs m hm
    (fun x hx => hr x (by rw [hx]; rfl))
  cases hrun : runLoop processNpy fs (globNames matchNpy fs) with
  | mk fs1 err =>
    rw [hrun] at hfr1
    cases err with
    | some e =>
      rw [runScript_eq_of_err hrun]
      exact hfr1
    | none =>
      rw [runScript_eq_of_ok hrun]
      rw [runLoop2_frame fs1 m (fun x hx => hr x (by rw [hx, Bool.or_true]))]
      exact hfr1

/-- C7 witness. -/
theorem write_frame_witness :
    getFile (runScript demoFs).1 "notes.txt" = getFile demoFs "notes.txt" :=
  write_frame demoFs "notes.txt" (by decide) (by
    intro g _ hc
    have h2 := lastChar_append_repr g
    rw [← hc] at h2
    exact absurd h2 (by decide))

/-- C4: for every valid archive (`.npz`) file `m`, after a completed run the
file `m ++ ".repr"` holds the textual representation of the full
name-to-array mapping loaded from the archive, followed by one newline. -/
theorem npz_repr_dump (fs : Fs) (m : String) (d : List (String × NpArray))
    (hnd : (fs.map Prod.fst).Nodup)
    (hok : (runScript fs).2 = none)
    (hm : matchNpz m = true)
    (hd : npLoadDict (getFile fs m) = some d) :
    getFile (runScript fs).1 (m ++ ".repr") =
      some (FileData.text (reprDict d ++ "\n")) := by
  obtain ⟨fs1, h1, h2⟩ := runScript_success hok
  have hfr1 : getFile fs1 m = getFile fs m := by
    have h := runLoop1_frame fs m (matchNpy_of_npz hm)
      (fun x _ => npz_ne_append_repr x hm)
    rw [h1] at h
    exact h
  have hnd1 : (fs1.map Prod.fst).Nodup := by
    have h := @runLoop_nodup processNpy (fun fs n fs1 h => processNpy_nodup h)
      (globNames matchNpy fs) fs hnd
    rw [h1] at h
    exact h
  obtain ⟨e, he⟩ := npLoadDict_some_getFile hd
  have hmem : m ∈ globNames matchNpz fs1 := by
    have hnames := @runLoop_names processNpy (fun fs n fs1 h => processNpy_names h)
      (globNames matchNpy fs) fs
    rw [h1] at hnames
    obtain ⟨l, hl, _⟩ := hnames
    refine List.mem_filter.2 ⟨?_, hm⟩
    rw [hl]
    exact List.mem_append_left l (getFile_some_mem he)
  obtain ⟨d2, hd2, _, hc2⟩ := runLoop_npz_spec h2 (hnd1.filter matchNpz)
    (fun x hx => (List.mem_filter.1 hx).2) m hmem
  rw [hfr1, hd] at hd2
  obtain rfl : d = d2 := Option.some.inj hd2
  exact hc2

/-- C4 witness. -/
theorem npz_repr_dump_witness :
    getFile (runScript demoFs).1 ("b.npz" ++ ".repr") =
      some (FileData.text (reprDict [("x", demoX)] ++ "\n")) :=
  npz_repr_dump demoFs "b.npz" [("x", demoX)] (by decide) (by decide) (by decide)
    (by decide)

/-- If some globbed `.npy` file is invalid, the first loop cannot complete
without an error. -/
theorem runLoop_npy_fails (ns : List String) (n : String) :
    ns.Nodup → (∀ x ∈ ns, matchNpy x = true) → n ∈ ns →
    ∀ fs : Fs, npLoadArr (getFile fs n) = none →
      (runLoop processNpy fs ns).2 ≠ none := by
  induction ns with
  | nil =>
    intro _ _ hn
    exact absurd hn (List.not_mem_nil n)
  | cons hd rest ih =>
    intro hnd hall hn fs hinv
    rw [List.nodup_cons] at hnd
    cases hstep : processNpy fs hd with
    | none =>
      simp only [runLoop, hstep]
      intro hc
      exact Option.noConfusion hc
    | some fsh =>
      simp only [runLoop, hstep]
      rcases List.mem_cons.1 hn with hcase | hcase
      · subst hcase
        rw [processNpy_none hinv] at hstep
        exact absurd hstep (by simp)
      · refine ih hnd.2 (fun x hx => hall x (List.mem_cons_of_mem hd hx)) hcase fsh ?_
        rw [processNpy_frame hstep n (fun hc => hnd.1 (hc ▸ hcase))
          (npy_ne_append_repr hd (hall n hn))]
        exact hinv

/-- C10: all `.npy` files are processed before any `.npz` file, so if some
`.npy` file fails to load, the run stops in the first loop and no `.repr`
dump of any archive is ever written: those files keep their previous content
(or stay absent). -/
theorem npy_failure_blocks_npz (fs : Fs) (n : String)
    (hnd : (fs.map Prod.fst).Nodup)
    (hn : n ∈ globNames matchNpy fs)
    (hinv : npLoadArr (getFile fs n) = none) :
    ∀ m, matchNpz m = true →
      getFile (runScript fs).1 (m ++ ".repr") = getFile fs (m ++ ".repr") := by
  intro m hm
  have hfr := runLoop1_frame fs (m ++ ".repr") (matchNpy_append_repr m) (by
    intro x hx hc
    have hmx := append_repr_inj hc
    rw [← hmx] at hx
    rw [matchNpy_of_npz hm] at hx
    exact Bool.false_ne_true hx)
  have hfail := runLoop_npy_fails (globNames matchNpy fs) n (hnd.filter matchNpy)
    (fun x hx => (List.mem_filter.1 hx).2) hn fs hinv
  cases hr : runLoop processNpy fs (globNames matchNpy fs) with
  | mk fs1 err =>
    rw [hr] at hfail hfr
    cases err with
    | none => exact absurd rfl hfail
    | some e =>
      rw [runScript_eq_of_err hr]
      exact hfr

/-- C10 witness. -/
theorem npy_failure_blocks_npz_witness :
    getFile (runScript badFs).1 ("b.npz" ++ ".repr") =
      getFile badFs ("b.npz" ++ ".repr") :=
  npy_failure_blocks_npz badFs "c.npy" (by decide) (by decide) (by decide) "b.npz"
    (by decide)

/-- If every globbed `.npy` file is valid, the first loop completes without
error. -/
theorem runLoop_npy_ok (ns : List String) :
    ∀ fs : Fs, ns.Nodup → (∀ x ∈ ns, matchNpy x = true) →
    (∀ x ∈ ns, (npLoadArr (getFile fs x)).isSome = true) →
    (runLoop processNpy fs ns).2 = none := by
  induction ns with
  | nil =>
    intro fs _ _ _
    rfl
  | cons hd rest ih =>
    intro fs hnd hall hv
    rw [List.nodup_cons] at hnd
    obtain ⟨a, ha⟩ := Option.isSome_iff_exists.1 (hv hd (List.mem_cons_self hd rest))
    have hstep := processNpy_some ha
    simp only [runLoop, hstep]
    apply ih _ hnd.2 (fun x hx => hall x (List.mem_cons_of_mem hd hx))
    intro x hx
    have hx1 : x ≠ hd := fun hc => hnd.1 (hc ▸ hx)
    have hx2 : x ≠ hd ++ ".repr" :=
      npy_ne_append_repr hd (hall x (List.mem_cons_of_mem hd hx))
    rw [processNpy_frame hstep x hx1 hx2]
    exact hv x (List.mem_cons_of_mem hd hx)

/-- What the `*.npz` loop does when it hits its first invalid archive `n`:
the loop stops with error `n`, the `.repr` dump of every archive after `n` is
untouched, and every archive before `n` keeps its freshly written dump. -/
theorem runLoop_npz_error {fs : Fs} {pre post : List String} {n : String}
    (hnd : (pre ++ n :: post).Nodup)
    (hall : ∀ m ∈ pre ++ n :: post, matchNpz m = true)
    (hpre : ∀ m ∈ pre, (npLoadDict (getFile fs m)).isSome = true)
    (hn : npLoadDict (getFile fs n) = none) :
    (runLoop processNpz fs (pre ++ n :: post)).2 = some n ∧
    (∀ m ∈ post, getFile (runLoop processNpz fs (pre ++ n :: post)).1 (m ++ ".repr") =
       getFile fs (m ++ ".repr")) ∧
    (∀ m ∈ pre, ∃ d, npLoadDict (getFile fs m) = some d ∧
       getFile (runLoop processNpz fs (pre ++ n :: post)).1 (m ++ ".repr") =
         some (FileData.text (reprDict d ++ "\n"))) := by
  induction pre generalizing fs with
  | nil =>
    simp only [List.nil_append]
    have hstep : processNpz fs n = none := processNpz_none hn
    simp only [runLoop, hstep]
    refine ⟨by trivial, ?_, ?_⟩
    · intro m _
      trivial
    · intro m hm
      exact absurd hm (List.not_mem_nil m)
  | cons p pre2 ih =>
    simp only [List.cons_append] at hnd hall ⊢
    rw [List.nodup_cons] at hnd
    have hap : matchNpz p = true := hall p (List.mem_cons_self p _)
    have hrest : ∀ m ∈ pre2 ++ n :: post, matchNpz m = true :=
      fun m hm => hall m (List.mem_cons_of_mem p hm)
    obtain ⟨d, hd⟩ := Option.isSome_iff_exists.1 (hpre p (List.mem_cons_self p pre2))
    have hstep := processNpz_some hd
    simp only [runLoop, hstep]
    set fsp := writeFile fs (p ++ ".repr") (FileData.text (reprDict d ++ "\n")) with hfsp
    have hframe : ∀ m, m ≠ p ++ ".repr" → getFile fsp m = getFile fs m := by
      intro m hm2
      rw [hfsp, getFile_writeFile_ne _ _ _ _ hm2]
    have hpre2 : ∀ m ∈ pre2, (npLoadDict (getFile fsp m)).isSome = true := by
      intro m hm
      rw [hframe m (npz_ne_append_repr p (hrest m (List.mem_append_left _ hm)))]
      exact hpre m (List.mem_cons_of_mem p hm)
    have hn2 : npLoadDict (getFile fsp n) = none := by
      rw [hframe n (npz_ne_append_repr p
        (hrest n (List.mem_append_right pre2 (List.mem_cons_self n post))))]
      exact hn
    obtain ⟨ih1, ih2, ih3⟩ := ih hnd.2 hrest hpre2 hn2
    refine ⟨ih1, ?_, ?_⟩
    · intro m hm
      have hmmem : m ∈ pre2 ++ n :: post :=
        List.mem_append_right pre2 (List.mem_cons_of_mem n hm)
      have hm1 : m ≠ p := by
        intro hc
        exact hnd.1 (hc ▸ hmmem)
      have hr2 : m ++ ".repr" ≠ p ++ ".repr" := fun hc => hm1 (append_repr_inj hc)
      rw [ih2 m hm, hframe _ hr2]
    · intro m hm
      rcases List.mem_cons.1 hm with hcase | hcase
      · subst hcase
        refine ⟨d, hd, ?_⟩
        have hc2 : getFile fsp (m ++ ".repr") =
            some (FileData.text (reprDict d ++ "\n")) := by
          rw [hfsp, getFile_writeFile_self]
        have hne : ∀ x ∈ pre2 ++ n :: post, m ++ ".repr" ≠ x ++ ".repr" := by
          intro x hx hc
          exact hnd.1 (append_repr_inj hc ▸ hx)
        have h2 := runLoop_frame_npz (pre2 ++ n :: post) fsp (m ++ ".repr") hne
        rw [h2, hc2]
      · have hm2 : m ≠ p ++ ".repr" :=
          npz_ne_append_repr p (hrest m (List.mem_append_left _ hcase))
        obtain ⟨d2, hd2, hb2⟩ := ih3 m hcase
        rw [hframe m hm2] at hd2
        exact ⟨d2, hd2, hb2⟩

/-- C8: no transactional guarantee: when the run terminates with an error
partway through, every output already written stays in place — nothing is
rolled back.  First conjunct: the run aborts at the first invalid `.npy`
file; every `.npy` file processed before it keeps its re-saved array and its
`.repr` dump.  Second conjunct: all `.npy` files are valid and the run aborts
at the first invalid `.npz` archive; every `.npy` file keeps its re-saved
array and its `.repr` dump, and every archive processed before the failing
one keeps its freshly written `.repr` dump. -/
theorem no_rollback (fs : Fs) (pre post : List String) (n : String)
    (hnd : (fs.map Prod.fst).Nodup) :
    ((globNames matchNpy fs = pre ++ n :: post ∧
      (∀ m ∈ pre, (npLoadArr (getFile fs m)).isSome = true) ∧
      npLoadArr (getFile fs n) = none) →
      (runScript fs).2 = some n ∧
      ∀ m ∈ pre, ∃ a, npLoadArr (getFile fs m) = some a ∧
        getFile (runScript fs).1 m = some (npSave a) ∧
        getFile (runScript fs).1 (m ++ ".repr") =
          some (FileData.text (reprArr a ++ "\n"))) ∧
    (((∀ x ∈ globNames matchNpy fs, (npLoadArr (getFile fs x)).isSome = true) ∧
      globNames matchNpz fs = pre ++ n :: post ∧
      (∀ m ∈ pre, (npLoadDict (getFile fs m)).isSome = true) ∧
      npLoadDict (getFile fs n) = none) →
      (runScript fs).2 = some n ∧
      (∀ x ∈ globNames matchNpy fs, ∃ a, npLoadArr (getFile fs x) = some a ∧
        getFile (runScript fs).1 x = some (npSave a) ∧
        getFile (runScript fs).1 (x ++ ".repr") =
          some (FileData.text (reprArr a ++ "\n"))) ∧
      (∀ m ∈ pre, ∃ d, npLoadDict (getFile fs m) = some d ∧
        getFile (runScript fs).1 (m ++ ".repr") =
          some (FileData.text (reprDict d ++ "\n")))) := by
  constructor
  · rintro ⟨hsplit, hpre, hn⟩
    have hndg : (pre ++ n :: post).Nodup := by
      rw [← hsplit]
      exact hnd.filter matchNpy
    have hallg : ∀ x ∈ pre ++ n :: post, matchNpy x = true := by
      intro x hx
      rw [← hsplit] at hx
      exact (List.mem_filter.1 hx).2
    obtain ⟨e1, _, e3⟩ := runLoop_npy_error hndg hallg hpre hn
    have hpair : runLoop processNpy fs (globNames matchNpy fs) =
        ((runLoop processNpy fs (pre ++ n :: post)).1, some n) := by
      rw [hsplit]
      exact Prod.ext rfl e1
    rw [runScript_eq_of_err hpair]
    exact ⟨rfl, fun m hm => e3 m hm⟩
  · rintro ⟨hvall, hsplit2, hpre, hn⟩
    have hok1 := runLoop_npy_ok (globNames matchNpy fs) fs (hnd.filter matchNpy)
      (fun x hx => (List.mem_filter.1 hx).2) hvall
    cases hr : runLoop processNpy fs (globNames matchNpy fs) with
    | mk fs1 err =>
      rw [hr] at hok1
      cases err with
      | some e => exact absurd hok1 (by simp)
      | none =>
        have hscript := runScript_eq_of_ok hr
        have hnames : ∃ l, fs1.map Prod.fst = fs.map Prod.fst ++ l ∧
            ∀ x ∈ l, ∃ g, x = g ++ ".repr" := by
          have h := @runLoop_names processNpy (fun fs n fs1 h => processNpy_names h)
            (globNames matchNpy fs) fs
          rw [hr] at h
          obtain ⟨l, hl, hlx⟩ := h
          refine ⟨l, hl, fun x hx => ?_⟩
          obtain ⟨g, _, hg⟩ := hlx x hx
          exact ⟨g, hg⟩
        have hglob2 : globNames matchNpz fs1 = globNames matchNpz fs :=
          globNames_eq_of_reprs (fun g => matchNpz_append_repr g) hnames
        have hfr1 : ∀ x, matchNpz x = true → getFile fs1 x = getFile fs x := by
          intro x hx
          have h := runLoop1_frame fs x (matchNpy_of_npz hx)
            (fun g _ => npz_ne_append_repr g hx)
          rw [hr] at h
          exact h
        have hndg : (pre ++ n :: post).Nodup := by
          rw [← hsplit2]
          exact hnd.filter matchNpz
        have hallg : ∀ x ∈ pre ++ n :: post, matchNpz x = true := by
          intro x hx
          rw [← hsplit2] at hx
          exact (List.mem_filter.1 hx).2
        have hnmem : matchNpz n = true :=
          hallg n (List.mem_append_right pre (List.mem_cons_self n post))
        have hpre1 : ∀ m ∈ pre, (npLoadDict (getFile fs1 m)).isSome = true := by
          intro m hm
          rw [hfr1 m (hallg m (List.mem_append_left _ hm))]
          exact hpre m hm
        have hn1 : npLoadDict (getFile fs1 n) = none := by
          rw [hfr1 n hnmem]
          exact hn
        obtain ⟨e1, _, e3⟩ := runLoop_npz_error hndg hallg hpre1 hn1
        have hloop2 : runLoop processNpz fs1 (globNames matchNpz fs1) =
            runLoop processNpz fs1 (pre ++ n :: post) := by
          rw [hglob2, hsplit2]
        have hspec1 := runLoop_npy_spec hr (hnd.filter matchNpy)
          (fun x hx => (List.mem_filter.1 hx).2)
        rw [hscript, hloop2]
        refine ⟨e1, ?_, ?_⟩
        · intro x hx
          have hny : matchNpy x = true := (List.mem_filter.1 hx).2
          obtain ⟨a, ha, hb, hc⟩ := hspec1 x hx
          refine ⟨a, ha, ?_, ?_⟩
          · have hfr := runLoop_frame_npz (pre ++ n :: post) fs1 x
              (fun g _ => npy_ne_append_repr g hny)
            rw [hfr, hb]
          · have hfr := runLoop_frame_npz (pre ++ n :: post) fs1 (x ++ ".repr") (by
              intro g hg hc2
              have hgx := append_repr_inj hc2
              have hxz : matchNpz x = true := by
                rw [hgx]
                exact hallg g hg
              rw [matchNpz_of_npy hny] at hxz
              exact Bool.false_ne_true hxz)
            rw [hfr, hc]
        · intro m hm
          obtain ⟨d, hd2, hb2⟩ := e3 m hm
          rw [hfr1 m (hallg m (List.mem_append_left _ hm))] at hd2
          exact ⟨d, hd2, hb2⟩

/-- C8 witness: a run that aborts in the archive loop; the re-saved `.npy`
file, its dump, and the dump of the earlier archive all persist. -/
theorem no_rollback_witness :
    (runScript badZFs).2 = some "c.npz" ∧
    (∀ x ∈ globNames matchNpy badZFs, ∃ a, npLoadArr (getFile badZFs x) = some a ∧
      getFile (runScript badZFs).1 x = some (npSave a) ∧
      getFile (runScript badZFs).1 (x ++ ".repr") =
        some (FileData.text (reprArr a ++ "\n"))) ∧
    (∀ m ∈ ["b.npz"], ∃ d, npLoadDict (getFile badZFs m) = some d ∧
      getFile (runScript badZFs).1 (m ++ ".repr") =
        some (FileData.text (reprDict d ++ "\n"))) :=
  (no_rollback badZFs ["b.npz"] ["d.npz"] "c.npz" (by decide)).2
    ⟨by decide, by decide, by decide, by decide⟩

/-- C5: a file that fails to load terminates the run with an error naming
that file, and nothing after it in the batch is processed.  First conjunct:
the failing file is the first invalid `.npy` file — later `.npy` files and
their `.repr` siblings are untouched.  Second conjunct: all `.npy` files are
valid and the failing
file is the first invalid `.npz` archive — later archives' `.repr` siblings
are untouched. -/
theorem error_aborts_batch (fs : Fs) (pre post : List String) (n : String)
    (hnd : (fs.map Prod.fst).Nodup) :
    ((globNames matchNpy fs = pre ++ n :: post ∧
      (∀ m ∈ pre, (npLoadArr (getFile fs m)).isSome = true) ∧
      npLoadArr (getFile fs n) = none) →
      (runScript fs).2 = some n ∧
      ∀ m ∈ post, getFile (runScript fs).1 m = getFile fs m ∧
        getFile (runScript fs).1 (m ++ ".repr") = getFile fs (m ++ ".repr")) ∧
    (((∀ x ∈ globNames matchNpy fs, (npLoadArr (getFile fs x)).isSome = true) ∧
      globNames matchNpz fs = pre ++ n :: post ∧
      (∀ m ∈ pre, (npLoadDict (getFile fs m)).isSome = true) ∧
      npLoadDict (getFile fs n) = none) →
      (runScript fs).2 = some n ∧
      ∀ m ∈ post, getFile (runScript fs).1 (m ++ ".repr") =
        getFile fs (m ++ ".repr")) := by
  constructor
  · rintro ⟨hsplit, hpre, hn⟩
    have hndg : (pre ++ n :: post).Nodup := by
      rw [← hsplit]
      exact hnd.filter matchNpy
    have hallg : ∀ x ∈ pre ++ n :: post, matchNpy x = true := by
      intro x hx
      rw [← hsplit] at hx
      exact (List.mem_filter.1 hx).2
    obtain ⟨e1, e2, _⟩ := runLoop_npy_error hndg hallg hpre hn
    have hpair : runLoop processNpy fs (globNames matchNpy fs) =
        ((runLoop processNpy fs (pre ++ n :: post)).1, some n) := by
      rw [hsplit]
      exact Prod.ext rfl e1
    rw [runScript_eq_of_err hpair]
    exact ⟨rfl, fun m hm => e2 m hm⟩
  · rintro ⟨hvall, hsplit2, hpre, hn⟩
    have hok1 := runLoop_npy_ok (globNames matchNpy fs) fs (hnd.filter matchNpy)
      (fun x hx => (List.mem_filter.1 hx).2) hvall
    cases hr : runLoop processNpy fs (globNames matchNpy fs) with
    | mk fs1 err =>
      rw [hr] at hok1
      cases err with
      | some e => exact absurd hok1 (by simp)
      | none =>
        have hscript := runScript_eq_of_ok hr
        have hnames : ∃ l, fs1.map Prod.fst = fs.map Prod.fst ++ l ∧
            ∀ x ∈ l, ∃ g, x = g ++ ".repr" := by
          have h := @runLoop_names processNpy (fun fs n fs1 h => processNpy_names h)
            (globNames matchNpy fs) fs
          rw [hr] at h
          obtain ⟨l, hl, hlx⟩ := h
          refine ⟨l, hl, fun x hx => ?_⟩
          obtain ⟨g, _, hg⟩ := hlx x hx
          exact ⟨g, hg⟩
        have hglob2 : globNames matchNpz fs1 = globNames matchNpz fs :=
          globNames_eq_of_reprs (fun g => matchNpz_append_repr g) hnames
        have hfr1 : ∀ x, matchNpz x = true → getFile fs1 x = getFile fs x := by
          intro x hx
          have h := runLoop1_frame fs x (matchNpy_of_npz hx)
            (fun g _ => npz_ne_append_repr g hx)
          rw [hr] at h
          exact h
        have hfrr : ∀ x, matchNpz x = true →
            getFile fs1 (x ++ ".repr") = getFile fs (x ++ ".repr") := by
          intro x hx
          have h := runLoop1_frame fs (x ++ ".repr") (matchNpy_append_repr x) (by
            intro g hg hc
            have hgx := append_repr_inj hc
            rw [← hgx] at hg
            rw [matchNpy_of_npz hx] at hg
            exact Bool.false_ne_true hg)
          rw [hr] at h
          exact h
        have hndg : (pre ++ n :: post).Nodup := by
          rw [← hsplit2]
          exact hnd.filter matchNpz
        have hallg : ∀ x ∈ pre ++ n :: post, matchNpz x = true := by
          intro x hx
          rw [← hsplit2] at hx
          exact (List.mem_filter.1 hx).2
        have hnmem : matchNpz n = true :=
          hallg n (List.mem_append_right pre (List.mem_cons_self n post))
        have hpre1 : ∀ m ∈ pre, (npLoadDict (getFile fs1 m)).isSome = true := by
          intro m hm
          rw [hfr1 m (hallg m (List.mem_append_left _ hm))]
          exact hpre m hm
        have hn1 : npLoadDict (getFile fs1 n) = none := by
          rw [hfr1 n hnmem]
          exact hn
        obtain ⟨e1, e2, _⟩ := runLoop_npz_error hndg hallg hpre1 hn1
        have hloop2 : runLoop processNpz fs1 (globNames matchNpz fs1) =
            runLoop processNpz fs1 (pre ++ n :: post) := by
          rw [hglob2, hsplit2]
        rw [hscript, hloop2]
        refine ⟨e1, ?_⟩
        intro m hm
        rw [e2 m hm]
        exact hfrr m (hallg m (List.mem_append_right pre (List.mem_cons_of_mem n hm)))

/-- C5 witness. -/
theorem error_aborts_batch_witness :
    (runScript badFs).2 = some "c.npy" ∧
    ∀ m ∈ ["d.npy"], getFile (runScript badFs).1 m = getFile badFs m ∧
      getFile (runScript badFs).1 (m ++ ".repr") = getFile badFs (m ++ ".repr") :=
  (error_aborts_batch badFs ["a.npy"] ["d.npy"] "c.npy" (by decide)).1
    ⟨by decide, by decide, by decide⟩

/-- C9: the batch job is idempotent: after one successful run, running the
script again succeeds, rewrites every `.npy` file and every `.repr` dump with
byte-identical content, and therefore leaves the directory in exactly the
same final state. -/
theorem run_idempotent (fs : Fs)
    (hnd : (fs.map Prod.fst).Nodup)
    (hok : (runScript fs).2 = none) :
    runScript (runScript fs).1 = ((runScript fs).1, none) := by
  obtain ⟨fs1, h1, h2⟩ := runScript_success hok
  have hnd1 : (fs1.map Prod.fst).Nodup := by
    have h := @runLoop_nodup processNpy (fun fs n fs1 h => processNpy_nodup h)
      (globNames matchNpy fs) fs hnd
    rw [h1] at h
    exact h
  have hnames1 : ∃ l, fs1.map Prod.fst = fs.map Prod.fst ++ l ∧
      ∀ x ∈ l, ∃ g, x = g ++ ".repr" := by
    have h := @runLoop_names processNpy (fun fs n fs1 h => processNpy_names h)
      (globNames matchNpy fs) fs
    rw [h1] at h
    obtain ⟨l, hl, hlx⟩ := h
    refine ⟨l, hl, fun x hx => ?_⟩
    obtain ⟨g, _, hg⟩ := hlx x hx
    exact ⟨g, hg⟩
  have hnames2 : ∃ l, (runScript fs).1.map Prod.fst = fs1.map Prod.fst ++ l ∧
      ∀ x ∈ l, ∃ g, x = g ++ ".repr" := by
    have h := @runLoop_names processNpz (fun fs n fs1 h => processNpz_names h)
      (globNames matchNpz fs1) fs1
    rw [h2] at h
    obtain ⟨l, hl, hlx⟩ := h
    refine ⟨l, hl, fun x hx => ?_⟩
    obtain ⟨g, _, hg⟩ := hlx x hx
    exact ⟨g, hg⟩
  have hgloby1 : globNames matchNpy fs1 = globNames matchNpy fs :=
    globNames_eq_of_reprs (fun g => matchNpy_append_repr g) hnames1
  have hglobyF : globNames matchNpy (runScript fs).1 = globNames matchNpy fs1 :=
    globNames_eq_of_reprs (fun g => matchNpy_append_repr g) hnames2
  have hglobzF : globNames matchNpz (runScript fs).1 = globNames matchNpz fs1 :=
    globNames_eq_of_reprs (fun g => matchNpz_append_repr g) hnames2
  have hfrN : ∀ x, matchNpy x = true →
      getFile (runScript fs).1 x = getFile fs1 x := by
    intro x hx
    have h := runLoop2_frame fs1 x (fun g _ => npy_ne_append_repr g hx)
    rw [h2] at h
    exact h
  have hfrR : ∀ x, matchNpy x = true →
      getFile (runScript fs).1 (x ++ ".repr") = getFile fs1 (x ++ ".repr") := by
    intro x hx
    have h := runLoop2_frame fs1 (x ++ ".repr") (by
      intro g hg hc
      have hgx := append_repr_inj hc
      rw [← hgx] at hg
      rw [matchNpz_of_npy hx] at hg
      exact Bool.false_ne_true hg)
    rw [h2] at h
    exact h
  have hspec1 := runLoop_npy_spec h1 (hnd.filter matchNpy)
    (fun x hx => (List.mem_filter.1 hx).2)
  have hspec2 := runLoop_npz_spec h2 (hnd1.filter matchNpz)
    (fun x hx => (List.mem_filter.1 hx).2)
  have hid1 : ∀ x ∈ globNames matchNpy (runScript fs).1,
      processNpy (runScript fs).1 x = some (runScript fs).1 := by
    intro x hx
    rw [hglobyF, hgloby1] at hx
    have hny : matchNpy x = true := (List.mem_filter.1 hx).2
    obtain ⟨a, _, hb, hc⟩ := hspec1 x hx
    have hfn : getFile (runScript fs).1 x = some (npSave a) := by
      rw [hfrN x hny, hb]
    have hfr : getFile (runScript fs).1 (x ++ ".repr") =
        some (FileData.text (reprArr a ++ "\n")) := by
      rw [hfrR x hny, hc]
    have hload : npLoadArr (getFile (runScript fs).1 x) = some a := by
      rw [hfn]
      rfl
    rw [processNpy_some hload, writeFile_same hfn, writeFile_same hfr]
  have hrun1 : runLoop processNpy (runScript fs).1
      (globNames matchNpy (runScript fs).1) = ((runScript fs).1, none) :=
    runLoop_id hid1
  rw [runScript_eq_of_ok hrun1]
  apply runLoop_id
  intro m hm
  rw [hglobzF] at hm
  obtain ⟨d, hd, he, hf⟩ := hspec2 m hm
  have hload : npLoadDict (getFile (runScript fs).1 m) = some d := by
    rw [he]
    exact hd
  rw [processNpz_some hload, writeFile_same hf]

/-- C9 witness. -/
theorem run_idempotent_witness :
    runScript (runScript demoFs).1 = ((runScript demoFs).1, none) :=
  run_idempotent demoFs (by decide) (by decide)
